import Mathlib

/-!
Verification of the preprocessing script `raw/preprocessing.py`
(COVID-19 vaccine accessibility project).

Modelling conventions:
* Input files are modelled as lists of lines with the trailing newline
  stripped. Python's file iteration yields each line with its final
  newline character, and Python `int()` ignores surrounding whitespace,
  so the two views agree; the blank Python line (a lone newline)
  corresponds to the empty line here.
* Python `int` values are modelled as `ℤ` (Python integers are unbounded)
  and `float` values as exact rationals `ℚ`; float arithmetic and float
  printing are idealised as exact rational arithmetic on the finite
  decimals that occur in this pipeline.
* A raised and uncaught Python exception is modelled as `Option.none`
  for the whole run.
-/

/-- Characters matched by the regular-expression character class used by
`point_to_coords`: the minus sign, the decimal point, and digits. -/
def pointChar (c : Char) : Bool := c = '-' || c = '.' || c.isDigit

/-- Maximal runs of `pointChar` characters in a character list, leftmost
first: the matches of the greedy pattern used in `point_to_coords`. -/
def runsAux : List Char → List Char → List (List Char)
  | acc, [] => if acc.isEmpty then [] else [acc.reverse]
  | acc, c :: cs =>
    if pointChar c then runsAux (c :: acc) cs
    else if acc.isEmpty then runsAux [] cs
    else acc.reverse :: runsAux [] cs

/-- Model of the `re.findall` call in `point_to_coords`. -/
def findall (s : String) : List String := (runsAux [] s.data).map fun l => ⟨l⟩

/-- Strip leading and trailing whitespace, as Python `int` and `float`
string parsing does. -/
def trimWs (l : List Char) : List Char :=
  ((l.dropWhile Char.isWhitespace).reverse.dropWhile Char.isWhitespace).reverse

/-- Numeric value of a decimal digit character. -/
def digitVal (c : Char) : ℕ := c.toNat - 48

/-- Value of a big-endian list of decimal digit characters. -/
def digitsToNat (l : List Char) : ℕ := l.foldl (fun a c => 10 * a + digitVal c) 0

/-- Magnitude part of Python `int()`: a nonempty all-digit string. -/
def pyNatCore (l : List Char) : Option ℕ :=
  if l ≠ [] ∧ l.all Char.isDigit then some (digitsToNat l) else none

/-- Model of Python `int()` on a string: optional surrounding whitespace,
an optional sign, then decimal digits. `none` models `ValueError`.
Underscore digit grouping is not modelled; it occurs in no input here. -/
def pyInt (s : String) : Option ℤ :=
  match trimWs s.data with
  | '-' :: r => (pyNatCore r).map fun n => -(n : ℤ)
  | '+' :: r => (pyNatCore r).map fun n => (n : ℤ)
  | r => (pyNatCore r).map fun n => (n : ℤ)

/-- Magnitude part of Python `float()` in plain decimal notation: digits
with at most one decimal point and at least one digit overall. -/
def pyFloatMag (l : List Char) : Option ℚ :=
  match l.splitOn '.' with
  | [ip] => (pyNatCore ip).map fun n => (n : ℚ)
  | [ip, fp] =>
    if (ip ++ fp) ≠ [] ∧ ip.all Char.isDigit ∧ fp.all Char.isDigit then
      some (mkRat (digitsToNat ip * 10 ^ fp.length + digitsToNat fp) (10 ^ fp.length))
    else none
  | _ => none

/-- Model of Python `float()` on a string, restricted to the plain decimal
forms the tokens of `findall` can take (no exponent, infinity or NaN
spellings, whose characters that pattern cannot match); the value is the
exact rational denoted by the literal. `none` models `ValueError`. -/
def pyFloat (s : String) : Option ℚ :=
  match trimWs s.data with
  | '-' :: r => (pyFloatMag r).map Neg.neg
  | '+' :: r => pyFloatMag r
  | r => pyFloatMag r

/-- Model of `point_to_coords`: run `findall`, then `float` on the second
and first tokens, returned in that order; `none` models the uncaught
`IndexError` or `ValueError` on malformed input. -/
def point_to_coords (point : String) : Option (ℚ × ℚ) :=
  match findall point with
  | s0 :: s1 :: _ =>
    match pyFloat s1, pyFloat s0 with
    | some a, some b => some (a, b)
    | _, _ => none
  | _ => none

/-- Python `line.split(sep)` for a one-character separator. -/
def pySplit (s : String) (c : Char) : List String :=
  (s.data.splitOn c).map fun l => ⟨l⟩

/-- Python `s[i]` on a list of strings; `none` models `IndexError`. -/
def col (s : List String) (i : ℕ) : Option String := s[i]?

/-- Python `s[-1]` on a list of strings; `none` models `IndexError`. -/
def lastCol (s : List String) : Option String := s.getLast?

/-- The header-row heuristic: is the first character of the line a digit?
The empty line stands for the blank Python line, whose first character is
the newline and hence not a digit. -/
def startsDigit (s : String) : Bool :=
  match s.data with
  | [] => false
  | c :: _ => c.isDigit

/-- Python `line.replace` removing every double-quote character. -/
def stripQuotes (s : String) : String := ⟨s.data.filter fun c => c ≠ '"'⟩

/-- The parsed column 0 of a comma-split line. -/
def lineCode0 (l : String) : Option ℤ := col (pySplit l ',') 0 >>= pyInt

/-- The postal code a data line contributes; `none` for header rows. -/
def lineCode (l : String) : Option ℤ := if startsDigit l then lineCode0 l else none

/-- The geometry column of a case line: the last comma-split field. -/
def lineGeom (l : String) : Option String := lastCol (pySplit l ',')

/-- The parsed column 18 (case count) of a case line. -/
def lineV18 (l : String) : Option ℤ := col (pySplit l ',') 18 >>= pyInt

/-- The parsed column 4 (dose count) of a vaccination line. -/
def lineV4 (l : String) : Option ℤ := col (pySplit l ',') 4 >>= pyInt

/-- The 5-digit parent code of an ADI line: strip quotes, split on commas,
require the first character of column 0 to be a digit, and parse the first
five characters of column 0. -/
def adiLineCode (l : String) : Option ℤ :=
  if l = "" then none
  else
    match col (pySplit (stripQuotes l) ',') 0 with
    | none => none
    | some c0 =>
      match c0.data with
      | [] => none
      | ch :: _ => if ch.isDigit then pyInt ⟨c0.data.take 5⟩ else none

/-- The parsed column 4 (ADI ranking) of a quote-stripped ADI line. -/
def adiV4 (l : String) : Option ℤ := col (pySplit (stripQuotes l) ',') 4 >>= pyInt

/-- The postal codes of the data rows of the case file. -/
def caseCodes (c : List String) : List ℤ := c.filterMap lineCode

/-- The parsed column-18 case counts of the rows for code `z`. -/
def caseVals (c : List String) (z : ℤ) : List ℤ :=
  c.filterMap fun l => if lineCode l = some z then lineV18 l else none

/-- The data rows of the case file whose postal code is `z`. -/
def caseRowsFor (c : List String) (z : ℤ) : List String :=
  c.filter fun l => lineCode l = some z

/-- The successfully parsed column-4 vaccination counts of rows for `z`. -/
def vaccVals (v : List String) (z : ℤ) : List ℤ :=
  v.filterMap fun l => if lineCode l = some z then lineV4 l else none

/-- The successfully parsed column-4 ADI values of rows whose 5-digit
parent code is `z`. -/
def adiVals (a : List String) (z : ℤ) : List ℤ :=
  a.filterMap fun l => if adiLineCode l = some z then adiV4 l else none

/-- As `adiVals`, additionally requiring `z` to lie in the known-code
set `K`, mirroring the membership filter of the ADI loop. -/
def adiValsK (a : List String) (z : ℤ) (K : List ℤ) : List ℤ :=
  a.filterMap fun l => if adiLineCode l = some z ∧ z ∈ K then adiV4 l else none

/-- A Python numeric value; the `int` versus `float` distinction matters
only for `str` rendering. -/
inductive PyNum
  | pint : ℤ → PyNum
  | pfloat : ℚ → PyNum
deriving DecidableEq

/-- The numeric value of a `PyNum`. -/
def PyNum.val : PyNum → ℚ
  | .pint z => (z : ℚ)
  | .pfloat q => q

/-- One population-center record: the five-element list stored per postal
code. The latitude and longitude are typed as rationals (floats) because
every entry of a completed run has had them overwritten with
`point_to_coords` output in the very iteration that created it. -/
structure Entry where
  lat : ℚ
  lon : ℚ
  popc : ℤ
  vacc : ℤ
  adi : PyNum
deriving DecidableEq

/-- The zero-initialised entry. -/
def entryInit : Entry := ⟨0, 0, 0, 0, .pint 0⟩

/-- Lookup in an insertion-ordered dictionary; `none` models `KeyError`. -/
def dget {β : Type} : List (ℤ × β) → ℤ → Option β
  | [], _ => none
  | (k, v) :: rest, z => if z = k then some v else dget rest z

/-- Dictionary store: overwrite in place, or append a new key. -/
def dset {β : Type} : List (ℤ × β) → ℤ → β → List (ℤ × β)
  | [], z, v => [(z, v)]
  | (k, w) :: rest, z, v => if z = k then (k, v) :: rest else (k, w) :: dset rest z v

/-- The keys of a dictionary, in insertion order. -/
def dkeys {β : Type} (d : List (ℤ × β)) : List ℤ := d.map Prod.fst

abbrev PopDict := List (ℤ × Entry)

abbrev AdiDict := List (ℤ × (ℤ × ℕ))

/-- The field update a case row performs on an entry: overwrite the
coordinates, fold the case count into the running maximum. -/
def caseUpd (cd : ℚ × ℚ) (v : ℤ) (e : Entry) : Entry :=
  { e with lat := cd.1, lon := cd.2, popc := max e.popc v }

/-- The field update a vaccination row performs on an entry. -/
def addVacc (v : ℤ) (e : Entry) : Entry := { e with vacc := e.vacc + v }

/-- The update an ADI row performs on a `(sum, count)` tally. -/
def addTally (v : ℤ) (p : ℤ × ℕ) : ℤ × ℕ := (p.1 + v, p.2 + 1)

/-- One iteration of the case-file loop of `process_chicago`. -/
def caseStep (st : PopDict) (l : String) : Option PopDict :=
  if startsDigit l = false then some st
  else do
    let zc ← lineCode0 l
    let g ← lineGeom l
    let cd ← point_to_coords g
    let v ← lineV18 l
    some (dset st zc (caseUpd cd v ((dget st zc).getD entryInit)))

/-- One iteration of the vaccination-file loop: an unknown postal code is
an uncaught `KeyError`, a missing column 4 an uncaught `IndexError`, and
only a column-4 parse failure is caught and skipped. -/
def vaccStep (st : PopDict) (l : String) : Option PopDict :=
  if startsDigit l = false then some st
  else do
    let zc ← lineCode0 l
    let e ← dget st zc
    let c4 ← col (pySplit l ',') 4
    match pyInt c4 with
    | none => some st
    | some v => some (dset st zc (addVacc v e))

/-- One iteration of the ADI-file loop over the `(sum, count)` tallies.
`K` is the known postal-code set, unchanged during this loop. A line
whose column 0 is empty is an uncaught `IndexError`; an unknown parent
code is skipped; a column-4 parse failure is caught and skipped. -/
def adiStep (K : List ℤ) (ad : AdiDict) (l : String) : Option AdiDict :=
  if l = "" then some ad
  else do
    let c0 ← col (pySplit (stripQuotes l) ',') 0
    match c0.data with
    | [] => none
    | ch :: _ =>
      if ch.isDigit = false then some ad
      else do
        let zc ← pyInt ⟨c0.data.take 5⟩
        if zc ∈ K then do
          let p ← dget ad zc
          let c4 ← col (pySplit (stripQuotes l) ',') 4
          match pyInt c4 with
          | none => some ad
          | some v => some (dset ad zc (addTally v p))
        else some ad

/-- The averaging pass: for every known code whose tally count is
positive, set the ADI cell to the float quotient sum divided by count. -/
def applyAdi (st : PopDict) (ad : AdiDict) : Option PopDict :=
  st.mapM fun p => do
    let t ← dget ad p.1
    if t.2 > 0 then some (p.1, { p.2 with adi := .pfloat (mkRat t.1 t.2) })
    else some (p.1, p.2)

/-- The in-memory population dictionary built by `process_chicago` from
the case, vaccination and ADI files; `none` models an uncaught exception
aborting the run before any output is written. -/
def chicagoPop (c v a : List String) : Option PopDict := do
  let st1 ← c.foldlM caseStep []
  let st2 ← v.foldlM vaccStep st1
  let ad ← a.foldlM (adiStep (dkeys st2)) (st2.map fun p => (p.1, ((0 : ℤ), (0 : ℕ))))
  applyAdi st2 ad

/-- The decimal digit characters. -/
def digitChar (d : ℕ) : Char :=
  match d with
  | 0 => '0' | 1 => '1' | 2 => '2' | 3 => '3' | 4 => '4'
  | 5 => '5' | 6 => '6' | 7 => '7' | 8 => '8' | 9 => '9'
  | _ => '*'

/-- Decimal digits of `n`, most significant first, computed with fuel. -/
def natDigitsAux : ℕ → ℕ → List Char
  | 0, _ => []
  | fuel + 1, n => if n = 0 then [] else natDigitsAux fuel (n / 10) ++ [digitChar (n % 10)]

/-- Python `str` on a nonnegative integer. -/
def pyStrNat (n : ℕ) : String := if n = 0 then "0" else ⟨natDigitsAux (n + 1) n⟩

/-- Python `str` on an integer. -/
def pyStrInt (z : ℤ) : String :=
  if z < 0 then "-" ++ pyStrNat (-z).toNat else pyStrNat z.toNat

/-- Left-pad with zero digits to width `k`. -/
def padZeros (k : ℕ) (s : String) : String :=
  ⟨List.replicate (k - s.length) '0'⟩ ++ s

/-- Python `str` on a nonnegative float whose value is an exact finite
decimal: the shortest positional decimal form, which is what Python's
shortest round-tripping float printer produces on such values (values
printed in scientific notation do not occur in this pipeline; a rational
that is not a finite decimal is rendered as an explicit fraction). -/
def pyStrFloatPos (q : ℚ) : String :=
  match (List.range 40).find? (fun k => (10 : ℕ) ^ k % q.den == 0) with
  | some k =>
    if k = 0 then pyStrNat q.num.toNat ++ ".0"
    else
      pyStrNat (q.num.toNat * (10 : ℕ) ^ k / q.den / 10 ^ k) ++ "." ++
        padZeros k (pyStrNat (q.num.toNat * (10 : ℕ) ^ k / q.den % 10 ^ k))
  | none => pyStrNat q.num.toNat ++ "/" ++ pyStrNat q.den

/-- Python `str` on a float in the exact-decimal range. -/
def pyStrFloat (q : ℚ) : String :=
  if q < 0 then "-" ++ pyStrFloatPos (-q) else pyStrFloatPos q

/-- Python `str` on a numeric cell. -/
def PyNum.str : PyNum → String
  | .pint z => pyStrInt z
  | .pfloat q => pyStrFloat q

/-- Population center file header, including column labels. -/
def POP_HEADER : String := "id\tname\tlat\tlon\tpop\tvacc\tadi\t\n"

/-- Facility file header, including column labels. -/
def FAC_HEADER : String := "id\tname\tlat\tlon\tcap\t\n"

/-- Python `sorted` on the dictionary keys: the ascending reordering (on
the distinct keys of the dictionary the sorted permutation is unique, so
any sorting algorithm is a faithful model). -/
def sortKeys (st : PopDict) : List ℤ := List.insertionSort (fun a b => a ≤ b) (dkeys st)

/-- The seven rendered cells of one population output row. -/
def rowCells (i : ℕ) (z : ℤ) (e : Entry) : List String :=
  [pyStrNat i, pyStrInt z, pyStrFloat e.lat, pyStrFloat e.lon,
   pyStrInt e.popc, pyStrInt e.vacc, e.adi.str]

/-- The population rows in output order: the sorted keys paired with
their entries and numbered from zero. -/
def popTable (st : PopDict) : Option (List (ℕ × ℤ × Entry)) := do
  let sk := sortKeys st
  let es ← sk.mapM (dget st)
  some ((sk.zip es).enum.map fun p => (p.1, p.2.1, p.2.2))

/-- One output line of the population file: each cell followed by a tab,
then a newline. -/
def renderRow (i : ℕ) (z : ℤ) (e : Entry) : String :=
  String.join ((rowCells i z e).map fun cell => cell ++ "\t") ++ "\n"

/-- The full text of the population output file. -/
def chicagoPopFile (c v a : List String) : Option String := do
  let st ← chicagoPop c v a
  let rows ← popTable st
  some (POP_HEADER ++ String.join (rows.map fun r => renderRow r.1 r.2.1 r.2.2))

/-- The full text of the facility output file: the header and no rows. -/
def chicagoFacFile : String := FAC_HEADER

/-- Per-code effect of one case line on the optional entry for code `z`:
the projection of `caseStep` to a single key. -/
def stepz (z : ℤ) (cur : Option Entry) (l : String) : Option Entry :=
  if lineCode l = some z then
    match lineGeom l >>= point_to_coords, lineV18 l with
    | some cd, some v => some (caseUpd cd v (cur.getD entryInit))
    | _, _ => cur
  else cur

/-- A case line that does not abort the run: either a header row, or a
data row whose code, geometry and column 18 all parse. -/
def caseLineOK (l : String) : Bool :=
  !startsDigit l ||
    ((lineCode0 l).isSome && (lineGeom l >>= point_to_coords).isSome &&
      (lineV18 l).isSome)

/-! ### Dictionary lemmas -/

theorem dkeys_cons {β : Type} (k : ℤ) (w : β) (rest : List (ℤ × β)) :
    dkeys ((k, w) :: rest) = k :: dkeys rest := rfl

theorem dget_dset_self {β : Type} (d : List (ℤ × β)) (z : ℤ) (v : β) :
    dget (dset d z v) z = some v := by
  induction d with
  | nil => simp [dget, dset]
  | cons p rest ih =>
    obtain ⟨k, w⟩ := p
    by_cases h : z = k
    · simp [dget, dset, h]
    · simp [dget, dset, h, ih]

theorem dget_dset_ne {β : Type} (d : List (ℤ × β)) (z z' : ℤ) (v : β) (h : z' ≠ z) :
    dget (dset d z v) z' = dget d z' := by
  induction d with
  | nil => simp [dget, dset, h]
  | cons p rest ih =>
    obtain ⟨k, w⟩ := p
    by_cases hk : z = k
    · subst hk
      simp [dget, dset, h]
    · by_cases hk' : z' = k
      · simp [dget, dset, hk, hk']
      · simp [dget, dset, hk, hk', ih]

theorem dget_none_iff {β : Type} (d : List (ℤ × β)) (z : ℤ) :
    dget d z = none ↔ z ∉ dkeys d := by
  induction d with
  | nil => simp [dget, dkeys]
  | cons p rest ih =>
    obtain ⟨k, w⟩ := p
    by_cases h : z = k
    · simp [dget, dkeys, h]
    · simp [dget, dkeys, h, ih]

theorem dget_some_mem {β : Type} {d : List (ℤ × β)} {z : ℤ} {v : β}
    (h : dget d z = some v) : z ∈ dkeys d := by
  by_contra hc
  rw [← dget_none_iff] at hc
  rw [h] at hc
  exact Option.noConfusion hc

theorem dkeys_dset_mem {β : Type} (d : List (ℤ × β)) (z : ℤ) (v : β) (h : z ∈ dkeys d) :
    dkeys (dset d z v) = dkeys d := by
  induction d with
  | nil => simp [dkeys] at h
  | cons p rest ih =>
    obtain ⟨k, w⟩ := p
    by_cases hk : z = k
    · simp [dset, dkeys_cons, hk]
    · rw [dkeys_cons, List.mem_cons] at h
      rcases h with h | h
      · exact absurd h hk
      · simp [dset, dkeys_cons, hk, ih h]

theorem dkeys_dset_new {β : Type} (d : List (ℤ × β)) (z : ℤ) (v : β) (h : z ∉ dkeys d) :
    dkeys (dset d z v) = dkeys d ++ [z] := by
  induction d with
  | nil => simp [dset, dkeys]
  | cons p rest ih =>
    obtain ⟨k, w⟩ := p
    rw [dkeys_cons, List.mem_cons] at h
    push_neg at h
    simp [dset, dkeys_cons, h.1, ih h.2]

theorem dget_map_init (st : PopDict) (z : ℤ) :
    dget (st.map fun p => (p.1, ((0 : ℤ), (0 : ℕ)))) z =
      (dget st z).map fun _ => ((0 : ℤ), (0 : ℕ)) := by
  induction st with
  | nil => simp [dget]
  | cons p rest ih =>
    obtain ⟨k, w⟩ := p
    by_cases h : z = k
    · simp [dget, h]
    · simp only [List.map_cons, dget, if_neg h]
      exact ih

/-! ### Case-file loop analysis -/

theorem lineCode_some_elim {l : String} {w : ℤ} (h : lineCode l = some w) :
    startsDigit l = true ∧ lineCode0 l = some w := by
  unfold lineCode at h
  by_cases hd : startsDigit l
  · rw [if_pos hd] at h
    exact ⟨hd, h⟩
  · rw [if_neg hd] at h
    exact Option.noConfusion h

theorem lineCode_of_data {l : String} {w : ℤ} (hd : startsDigit l = true)
    (h0 : lineCode0 l = some w) : lineCode l = some w := by
  unfold lineCode
  rw [if_pos hd]
  exact h0

theorem caseStep_eq_some {st st' : PopDict} {l : String} (h : caseStep st l = some st') :
    (startsDigit l = false ∧ st' = st) ∨
    (startsDigit l = true ∧ ∃ zc cd v, lineCode0 l = some zc ∧
      (lineGeom l >>= point_to_coords) = some cd ∧ lineV18 l = some v ∧
      st' = dset st zc (caseUpd cd v ((dget st zc).getD entryInit))) := by
  unfold caseStep at h
  by_cases hd : startsDigit l = false
  · rw [if_pos hd] at h
    exact Or.inl ⟨hd, (Option.some.inj h).symm⟩
  · rw [if_neg hd] at h
    rw [Bool.not_eq_false] at hd
    right
    refine ⟨hd, ?_⟩
    simp only [bind, Option.bind_eq_some] at h
    obtain ⟨zc, hzc, h⟩ := h
    obtain ⟨g, hg, h⟩ := h
    obtain ⟨cd, hcd, h⟩ := h
    obtain ⟨v, hv, h⟩ := h
    refine ⟨zc, cd, v, hzc, ?_, hv, (Option.some.inj h).symm⟩
    simp [hg, bind, hcd]

theorem caseStep_dget {st st' : PopDict} {l : String} (h : caseStep st l = some st')
    (z : ℤ) : dget st' z = stepz z (dget st z) l := by
  rcases caseStep_eq_some h with ⟨hd, rfl⟩ | ⟨hd, zc, cd, v, hzc, hcd, hv, rfl⟩
  · unfold stepz
    rw [if_neg]
    unfold lineCode
    rw [hd]
    simp
  · have hlc : lineCode l = some zc := lineCode_of_data hd hzc
    unfold stepz
    by_cases hz : z = zc
    · subst hz
      rw [if_pos hlc, hcd, hv, dget_dset_self]
    · rw [if_neg, dget_dset_ne st zc z _ hz]
      rw [hlc]
      simp only [Option.some.injEq]
      exact fun hc => hz hc.symm

theorem processCase_dget :
    ∀ (lines : List String) (st st' : PopDict),
      List.foldlM caseStep st lines = some st' →
      ∀ z : ℤ, dget st' z = List.foldl (stepz z) (dget st z) lines := by
  intro lines
  induction lines with
  | nil =>
    intro st st' h z
    rw [List.foldlM_nil] at h
    cases h
    rfl
  | cons l ls ih =>
    intro st st' h z
    rw [List.foldlM_cons] at h
    simp only [bind, Option.bind_eq_some] at h
    obtain ⟨st1, h1, h2⟩ := h
    rw [List.foldl_cons, ← caseStep_dget h1 z]
    exact ih st1 st' h2 z

theorem caseStep_ok {st st' : PopDict} {l : String} (h : caseStep st l = some st') :
    caseLineOK l = true := by
  rcases caseStep_eq_some h with ⟨hd, _⟩ | ⟨hd, zc, cd, v, hzc, hcd, hv, _⟩
  · simp [caseLineOK, hd]
  · simp [caseLineOK, hd, hzc, hcd, hv]

theorem processCase_ok :
    ∀ (lines : List String) (st st' : PopDict),
      List.foldlM caseStep st lines = some st' →
      ∀ l ∈ lines, caseLineOK l = true := by
  intro lines
  induction lines with
  | nil =>
    intro st st' _ l hl
    exact absurd hl (List.not_mem_nil l)
  | cons l0 ls ih =>
    intro st st' h l hl
    rw [List.foldlM_cons] at h
    simp only [bind, Option.bind_eq_some] at h
    obtain ⟨st1, h1, h2⟩ := h
    rcases List.mem_cons.mp hl with rfl | hl'
    · exact caseStep_ok h1
    · exact ih st1 st' h2 l hl'

theorem stepz_of_ne {z : ℤ} {cur : Option Entry} {l : String}
    (h : lineCode l ≠ some z) : stepz z cur l = cur := by
  unfold stepz
  rw [if_neg h]

theorem stepz_of_eq {z : ℤ} {cur : Option Entry} {l : String} {cd : ℚ × ℚ} {v : ℤ}
    (h : lineCode l = some z) (hcd : (lineGeom l >>= point_to_coords) = some cd)
    (hv : lineV18 l = some v) :
    stepz z cur l = some (caseUpd cd v (cur.getD entryInit)) := by
  unfold stepz
  rw [if_pos h, hcd, hv]

theorem stepz_ok_of_code {z : ℤ} {l : String} (hok : caseLineOK l = true)
    (h : lineCode l = some z) :
    ∃ cd v, (lineGeom l >>= point_to_coords) = some cd ∧ lineV18 l = some v := by
  obtain ⟨hd, h0⟩ := lineCode_some_elim h
  unfold caseLineOK at hok
  rw [hd] at hok
  simp only [Bool.not_true, Bool.false_or, Bool.and_eq_true, Option.isSome_iff_exists] at hok
  obtain ⟨⟨-, cd, hcd⟩, v, hv⟩ := hok
  exact ⟨cd, v, hcd, hv⟩

theorem foldl_stepz_some (z : ℤ) :
    ∀ (lines : List String) (e : Entry),
      List.foldl (stepz z) (some e) lines ≠ none := by
  intro lines
  induction lines with
  | nil => intro e h; exact Option.noConfusion h
  | cons l ls ih =>
    intro e
    rw [List.foldl_cons]
    by_cases h : lineCode l = some z
    · unfold stepz
      rw [if_pos h]
      cases hcd : (lineGeom l >>= point_to_coords) with
      | none => exact ih e
      | some cd =>
        cases hv : lineV18 l with
        | none => exact ih e
        | some v => exact ih _
    · rw [stepz_of_ne h]
      exact ih e

theorem foldl_stepz_none_iff (z : ℤ) :
    ∀ lines : List String, (∀ l ∈ lines, caseLineOK l = true) →
      (List.foldl (stepz z) none lines = none ↔ z ∉ caseCodes lines) := by
  intro lines
  induction lines with
  | nil => intro _; simp [caseCodes]
  | cons l ls ih =>
    intro hok
    have hok' : ∀ x ∈ ls, caseLineOK x = true := fun x hx => hok x (List.mem_cons_of_mem l hx)
    rw [List.foldl_cons]
    unfold caseCodes
    rw [List.filterMap_cons]
    cases hc : lineCode l with
    | none =>
      rw [stepz_of_ne (by simp [hc])]
      exact ih hok'
    | some w =>
      by_cases hw : w = z
      · subst hw
        obtain ⟨cd, v, hcd, hv⟩ := stepz_ok_of_code (hok l (List.mem_cons_self l ls)) hc
        rw [stepz_of_eq hc hcd hv]
        constructor
        · intro hcontra
          exact absurd hcontra (foldl_stepz_some w ls _)
        · intro hmem
          exact absurd (List.mem_cons_self w _) hmem
      · rw [stepz_of_ne (by simp [hc, hw])]
        rw [ih hok']
        constructor
        · intro hz hmem
          rcases List.mem_cons.mp hmem with rfl | hmem'
          · exact hw rfl
          · exact hz hmem'
        · intro hz hmem
          exact hz (List.mem_cons_of_mem w hmem)

theorem foldl_stepz_popc (z : ℤ) :
    ∀ (lines : List String) (cur : Option Entry) (e' : Entry),
      (∀ l ∈ lines, caseLineOK l = true) →
      List.foldl (stepz z) cur lines = some e' →
      e'.popc = (caseVals lines z).foldl max ((cur.map Entry.popc).getD 0) := by
  intro lines
  induction lines with
  | nil =>
    intro cur e' _ h
    cases h
    simp [caseVals]
  | cons l ls ih =>
    intro cur e' hok h
    have hok' : ∀ x ∈ ls, caseLineOK x = true := fun x hx => hok x (List.mem_cons_of_mem l hx)
    rw [List.foldl_cons] at h
    unfold caseVals
    rw [List.filterMap_cons]
    by_cases hc : lineCode l = some z
    · obtain ⟨cd, v, hcd, hv⟩ := stepz_ok_of_code (hok l (List.mem_cons_self l ls)) hc
      rw [stepz_of_eq hc hcd hv] at h
      rw [if_pos hc, hv]
      have := ih _ e' hok' h
      rw [this]
      rw [List.foldl_cons]
      congr 1
      cases cur with
      | none => simp [caseUpd, entryInit]
      | some e0 => simp [caseUpd]
    · rw [stepz_of_ne hc] at h
      rw [if_neg hc]
      exact ih cur e' hok' h

theorem stepz_vacc_adi_pres (z : ℤ) (cur : Option Entry) (l : String) :
    ((stepz z cur l).map Entry.vacc).getD 0 = (cur.map Entry.vacc).getD 0 ∧
    ((stepz z cur l).map Entry.adi).getD (.pint 0) = (cur.map Entry.adi).getD (.pint 0) := by
  unfold stepz
  by_cases hc : lineCode l = some z
  · rw [if_pos hc]
    cases hcd : (lineGeom l >>= point_to_coords) with
    | none => exact ⟨rfl, rfl⟩
    | some cd =>
      cases hv : lineV18 l with
      | none => exact ⟨rfl, rfl⟩
      | some v =>
        cases cur with
        | none => simp [caseUpd, entryInit]
        | some e0 => simp [caseUpd]
  · rw [if_neg hc]
    exact ⟨rfl, rfl⟩

theorem foldl_stepz_vacc_adi (z : ℤ) :
    ∀ (lines : List String) (cur : Option Entry) (e' : Entry),
      List.foldl (stepz z) cur lines = some e' →
      e'.vacc = (cur.map Entry.vacc).getD 0 ∧
      e'.adi = (cur.map Entry.adi).getD (.pint 0) := by
  intro lines
  induction lines with
  | nil =>
    intro cur e' h
    cases h
    exact ⟨rfl, rfl⟩
  | cons l ls ih =>
    intro cur e' h
    rw [List.foldl_cons] at h
    obtain ⟨h1, h2⟩ := ih _ e' h
    obtain ⟨p1, p2⟩ := stepz_vacc_adi_pres z cur l
    exact ⟨h1.trans p1, h2.trans p2⟩

theorem foldl_stepz_no_rows (z : ℤ) :
    ∀ (lines : List String) (cur : Option Entry),
      (∀ l ∈ lines, lineCode l ≠ some z) →
      List.foldl (stepz z) cur lines = cur := by
  intro lines
  induction lines with
  | nil => intro cur _; rfl
  | cons l ls ih =>
    intro cur h
    rw [List.foldl_cons, stepz_of_ne (h l (List.mem_cons_self l ls))]
    exact ih cur fun x hx => h x (List.mem_cons_of_mem l hx)

theorem foldl_stepz_coords (z : ℤ) :
    ∀ (lines : List String) (cur : Option Entry),
      (∀ l ∈ lines, caseLineOK l = true) →
      ∀ l' : String, (caseRowsFor lines z).getLast? = some l' →
      ∀ e' : Entry, List.foldl (stepz z) cur lines = some e' →
      (lineGeom l' >>= point_to_coords) = some (e'.lat, e'.lon) := by
  intro lines
  induction lines with
  | nil =>
    intro cur _ l' hl'
    exact absurd hl' (by simp [caseRowsFor])
  | cons l ls ih =>
    intro cur hok l' hl' e' h
    have hok' : ∀ x ∈ ls, caseLineOK x = true := fun x hx => hok x (List.mem_cons_of_mem l hx)
    rw [List.foldl_cons] at h
    unfold caseRowsFor at hl'
    rw [List.filter_cons] at hl'
    by_cases hc : lineCode l = some z
    · rw [if_pos (by simp [hc])] at hl'
      obtain ⟨cd, v, hcd, hv⟩ := stepz_ok_of_code (hok l (List.mem_cons_self l ls)) hc
      rw [stepz_of_eq hc hcd hv] at h
      cases hrows : ls.filter (fun x => lineCode x = some z) with
      | nil =>
        rw [hrows, List.getLast?_singleton] at hl'
        obtain rfl := Option.some.inj hl'
        have hnone : ∀ x ∈ ls, lineCode x ≠ some z := by
          intro x hx hcontra
          have : x ∈ ls.filter (fun x => lineCode x = some z) := by
            rw [List.mem_filter]
            exact ⟨hx, by simp [hcontra]⟩
          rw [hrows] at this
          exact absurd this (List.not_mem_nil x)
        rw [foldl_stepz_no_rows z ls _ hnone] at h
        cases h
        rw [hcd]
        simp [caseUpd]
      | cons r rs =>
        rw [hrows, List.getLast?_cons_cons] at hl'
        have : (caseRowsFor ls z).getLast? = some l' := by
          unfold caseRowsFor
          rw [hrows]
          exact hl'
        exact ih _ hok' l' this e' h
    · rw [if_neg (by simp [hc])] at hl'
      rw [stepz_of_ne hc] at h
      exact ih cur hok' l' hl' e' h

/-! ### Vaccination-file loop analysis -/

theorem addVacc_zero (e : Entry) : addVacc 0 e = e := by
  simp [addVacc]

theorem addVacc_addVacc (v w : ℤ) (e : Entry) :
    addVacc w (addVacc v e) = addVacc (v + w) e := by
  simp [addVacc, add_assoc]

theorem vaccStep_eq_some {st st' : PopDict} {l : String} (h : vaccStep st l = some st') :
    (startsDigit l = false ∧ st' = st) ∨
    (startsDigit l = true ∧ ∃ zc e c4, lineCode0 l = some zc ∧ dget st zc = some e ∧
      col (pySplit l ',') 4 = some c4 ∧
      ((pyInt c4 = none ∧ st' = st) ∨
        (∃ v, pyInt c4 = some v ∧ st' = dset st zc (addVacc v e)))) := by
  unfold vaccStep at h
  by_cases hd : startsDigit l = false
  · rw [if_pos hd] at h
    exact Or.inl ⟨hd, (Option.some.inj h).symm⟩
  · rw [if_neg hd] at h
    rw [Bool.not_eq_false] at hd
    right
    refine ⟨hd, ?_⟩
    simp only [bind, Option.bind_eq_some] at h
    obtain ⟨zc, hzc, h⟩ := h
    obtain ⟨e, he, h⟩ := h
    obtain ⟨c4, hc4, h⟩ := h
    refine ⟨zc, e, c4, hzc, he, hc4, ?_⟩
    cases hp : pyInt c4 with
    | none =>
      rw [hp] at h
      exact Or.inl ⟨rfl, (Option.some.inj h).symm⟩
    | some v =>
      rw [hp] at h
      exact Or.inr ⟨v, rfl, (Option.some.inj h).symm⟩

theorem vaccStep_dget {st st' : PopDict} {l : String} (h : vaccStep st l = some st')
    (z : ℤ) :
    dget st' z =
      match (if lineCode l = some z then lineV4 l else none) with
      | some v => (dget st z).map (addVacc v)
      | none => dget st z := by
  rcases vaccStep_eq_some h with ⟨hd, rfl⟩ |
    ⟨hd, zc, e, c4, hzc, he, hc4, hrest⟩
  · rw [if_neg]
    unfold lineCode
    rw [hd]
    simp
  · have hlc : lineCode l = some zc := lineCode_of_data hd hzc
    have hv4 : lineV4 l = col (pySplit l ',') 4 >>= pyInt := rfl
    rcases hrest with ⟨hp, rfl⟩ | ⟨v, hp, rfl⟩
    · have : (if lineCode l = some z then lineV4 l else none) = none := by
        by_cases hz : lineCode l = some z
        · rw [if_pos hz, hv4, hc4]
          simp [bind, hp]
        · rw [if_neg hz]
      rw [this]
    · by_cases hz : z = zc
      · subst hz
        rw [if_pos hlc, hv4, hc4]
        simp only [bind, Option.some_bind, hp]
        rw [dget_dset_self, he]
        rfl
      · rw [dget_dset_ne st zc z _ hz]
        have : (if lineCode l = some z then lineV4 l else none) = none := by
          rw [if_neg]
          rw [hlc]
          simp only [Option.some.injEq]
          exact fun hcontra => hz hcontra.symm
        rw [this]

theorem vaccStep_keys {st st' : PopDict} {l : String} (h : vaccStep st l = some st') :
    dkeys st' = dkeys st := by
  rcases vaccStep_eq_some h with ⟨-, rfl⟩ | ⟨-, zc, e, c4, -, he, -, hrest⟩
  · rfl
  · rcases hrest with ⟨-, rfl⟩ | ⟨v, -, rfl⟩
    · rfl
    · exact dkeys_dset_mem st zc _ (dget_some_mem he)

theorem processVacc_dget :
    ∀ (lines : List String) (st st' : PopDict),
      List.foldlM vaccStep st lines = some st' →
      ∀ z : ℤ, dget st' z = (dget st z).map (addVacc (vaccVals lines z).sum) := by
  intro lines
  induction lines with
  | nil =>
    intro st st' h z
    rw [List.foldlM_nil] at h
    obtain rfl : st = st' := Option.some.inj h
    unfold vaccVals
    simp only [List.filterMap_nil, List.sum_nil]
    cases hz : dget st z with
    | none => rfl
    | some e => simp [addVacc_zero]
  | cons l ls ih =>
    intro st st' h z
    rw [List.foldlM_cons] at h
    simp only [bind, Option.bind_eq_some] at h
    obtain ⟨st1, h1, h2⟩ := h
    have hstep := vaccStep_dget h1 z
    have hrest := ih st1 st' h2 z
    unfold vaccVals
    rw [List.filterMap_cons]
    cases hcontrib : (if lineCode l = some z then lineV4 l else none) with
    | none =>
      rw [hcontrib] at hstep
      rw [hrest, hstep]
      rfl
    | some v =>
      rw [hcontrib] at hstep
      rw [hrest, hstep, Option.map_map, List.sum_cons]
      cases hz : dget st z with
      | none => rfl
      | some e => simp [addVacc_addVacc, vaccVals]

theorem processVacc_keys :
    ∀ (lines : List String) (st st' : PopDict),
      List.foldlM vaccStep st lines = some st' → dkeys st' = dkeys st := by
  intro lines
  induction lines with
  | nil =>
    intro st st' h
    rw [List.foldlM_nil] at h
    cases h
    rfl
  | cons l ls ih =>
    intro st st' h
    rw [List.foldlM_cons] at h
    simp only [bind, Option.bind_eq_some] at h
    obtain ⟨st1, h1, h2⟩ := h
    exact (ih st1 st' h2).trans (vaccStep_keys h1)

theorem processVacc_bad :
    ∀ (lines : List String) (st : PopDict) (l : String) (z : ℤ),
      l ∈ lines → lineCode l = some z → z ∉ dkeys st →
      List.foldlM vaccStep st lines = none := by
  intro lines
  induction lines with
  | nil =>
    intro st l z hl
    exact absurd hl (List.not_mem_nil l)
  | cons l0 ls ih =>
    intro st l z hl hlc hz
    rw [List.foldlM_cons]
    rcases List.mem_cons.mp hl with rfl | hl'
    · obtain ⟨hd, h0⟩ := lineCode_some_elim hlc
      have hnone : dget st z = none := (dget_none_iff st z).mpr hz
      unfold vaccStep
      rw [if_neg (by rw [hd]; exact fun hcontra => Bool.noConfusion hcontra)]
      simp [bind, h0, hnone]
    · cases h0 : vaccStep st l0 with
      | none => rfl
      | some st1 =>
        have : z ∉ dkeys st1 := by
          rw [vaccStep_keys h0]
          exact hz
        simpa [bind, h0] using ih st1 l z hl' hlc this

/-! ### ADI loop analysis -/

theorem adiLineCode_some_elim {l : String} {z : ℤ} (h : adiLineCode l = some z) :
    l ≠ "" ∧ ∃ c0 ch rest, col (pySplit (stripQuotes l) ',') 0 = some c0 ∧
      c0.data = ch :: rest ∧ ch.isDigit = true ∧ pyInt ⟨c0.data.take 5⟩ = some z := by
  unfold adiLineCode at h
  split at h
  · exact Option.noConfusion h
  · next he =>
    refine ⟨he, ?_⟩
    split at h
    · exact Option.noConfusion h
    · next c0 hc0 =>
      split at h
      · exact Option.noConfusion h
      · next ch rest hdata =>
        split at h
        · next hdig => exact ⟨c0, ch, rest, hc0, hdata, hdig, h⟩
        · exact Option.noConfusion h

theorem adiStep_skip_unknown {K : List ℤ} {ad : AdiDict} {l : String} {z : ℤ}
    (h : adiLineCode l = some z) (hz : z ∉ K) : adiStep K ad l = some ad := by
  obtain ⟨he, c0, ch, rest, hc0, hdata, hdig, hparse⟩ := adiLineCode_some_elim h
  rw [hdata] at hparse
  unfold adiStep
  rw [if_neg he]
  simp only [bind, hc0, Option.some_bind, hdata]
  simp only [List.take_succ_cons] at hparse
  simp [hdig, hparse, hz]

theorem adiStep_eq_some {K : List ℤ} {ad ad' : AdiDict} {l : String}
    (h : adiStep K ad l = some ad') :
    (adiLineCode l = none ∧ ad' = ad) ∨
    (∃ z, adiLineCode l = some z ∧
      ((z ∉ K ∧ ad' = ad) ∨
        (z ∈ K ∧ ∃ p c4, dget ad z = some p ∧
          col (pySplit (stripQuotes l) ',') 4 = some c4 ∧
          ((pyInt c4 = none ∧ ad' = ad) ∨
            (∃ v, pyInt c4 = some v ∧ ad' = dset ad z (addTally v p)))))) := by
  unfold adiStep at h
  split at h
  · next he =>
    exact Or.inl ⟨by rw [adiLineCode, if_pos he], (Option.some.inj h).symm⟩
  · next he =>
    simp only [bind, Option.bind_eq_some] at h
    obtain ⟨c0, hc0, h⟩ := h
    split at h
    · exact Option.noConfusion h
    · next ch rest hdata =>
      have hcode : adiLineCode l =
          (if ch.isDigit then pyInt ⟨c0.data.take 5⟩ else none) := by
        unfold adiLineCode
        rw [if_neg he, hc0]
        simp only [hdata]
      split at h
      · next hndig =>
        left
        constructor
        · simpa [hndig] using hcode
        · exact (Option.some.inj h).symm
      · next hndig =>
        have hdig : ch.isDigit = true := by
          rw [Bool.not_eq_false] at hndig
          exact hndig
        rw [hdig, if_pos rfl] at hcode
        simp only [Option.bind_eq_some] at h
        obtain ⟨z, hz, h⟩ := h
        right
        refine ⟨z, by rw [hcode]; exact hz, ?_⟩
        split at h
        · next hmem =>
          simp only [Option.bind_eq_some] at h
          obtain ⟨p, hp, h⟩ := h
          obtain ⟨c4, hc4, h⟩ := h
          refine Or.inr ⟨hmem, p, c4, hp, hc4, ?_⟩
          split at h
          · next hpi => exact Or.inl ⟨hpi, (Option.some.inj h).symm⟩
          · next v hpi => exact Or.inr ⟨v, hpi, (Option.some.inj h).symm⟩
        · next hmem => exact Or.inl ⟨hmem, (Option.some.inj h).symm⟩

theorem adiStep_dget {K : List ℤ} {ad ad' : AdiDict} {l : String}
    (h : adiStep K ad l = some ad') (z : ℤ) :
    dget ad' z =
      match (if adiLineCode l = some z ∧ z ∈ K then adiV4 l else none) with
      | some v => (dget ad z).map (addTally v)
      | none => dget ad z := by
  have hv4 : adiV4 l = col (pySplit (stripQuotes l) ',') 4 >>= pyInt := rfl
  rcases adiStep_eq_some h with ⟨hnone, rfl⟩ | ⟨w, hw, hrest⟩
  · rw [if_neg (by rw [hnone]; rintro ⟨hcontra, -⟩; exact Option.noConfusion hcontra)]
  · rcases hrest with ⟨hmem, rfl⟩ | ⟨hmem, p, c4, hp, hc4, hrest⟩
    · rw [if_neg (by
        rw [hw]
        rintro ⟨hc, hk⟩
        exact hmem ((Option.some.inj hc) ▸ hk))]
    · rcases hrest with ⟨hpi, rfl⟩ | ⟨v, hpi, rfl⟩
      · by_cases hcond : adiLineCode l = some z ∧ z ∈ K
        · have hvnone : adiV4 l = none := by
            rw [hv4, hc4]
            simp [bind, hpi]
          rw [if_pos hcond, hvnone]
        · rw [if_neg hcond]
      · by_cases hz : z = w
        · subst hz
          have hvsome : adiV4 l = some v := by
            rw [hv4, hc4]
            simp [bind, hpi]
          rw [if_pos ⟨hw, hmem⟩, hvsome, dget_dset_self, hp]
          rfl
        · rw [dget_dset_ne ad w z _ hz]
          rw [if_neg (by
            rintro ⟨hc, -⟩
            rw [hw] at hc
            exact hz (Option.some.inj hc).symm)]

theorem addTally_comp (v s : ℤ) (n : ℕ) (p : ℤ × ℕ) :
    ((addTally v p).1 + s, (addTally v p).2 + n) = (p.1 + (v + s), p.2 + (n + 1)) := by
  simp [addTally]
  constructor
  · omega
  · omega

theorem processAdi_dget :
    ∀ (lines : List String) (K : List ℤ) (ad ad' : AdiDict),
      List.foldlM (adiStep K) ad lines = some ad' →
      ∀ z : ℤ,
        dget ad' z = (dget ad z).map fun p =>
          (p.1 + (adiValsK lines z K).sum, p.2 + (adiValsK lines z K).length) := by
  intro lines
  induction lines with
  | nil =>
    intro K ad ad' h z
    rw [List.foldlM_nil] at h
    obtain rfl : ad = ad' := Option.some.inj h
    unfold adiValsK
    simp only [List.filterMap_nil, List.sum_nil, List.length_nil]
    cases hz : dget ad z with
    | none => rfl
    | some p => simp
  | cons l ls ih =>
    intro K ad ad' h z
    rw [List.foldlM_cons] at h
    simp only [bind, Option.bind_eq_some] at h
    obtain ⟨ad1, h1, h2⟩ := h
    have hstep := adiStep_dget h1 z
    have hrest := ih K ad1 ad' h2 z
    unfold adiValsK
    rw [List.filterMap_cons]
    cases hcontrib : (if adiLineCode l = some z ∧ z ∈ K then adiV4 l else none) with
    | none =>
      rw [hcontrib] at hstep
      rw [hrest, hstep]
      rfl
    | some v =>
      rw [hcontrib] at hstep
      rw [hrest, hstep, Option.map_map]
      cases hz : dget ad z with
      | none => rfl
      | some p =>
        simp only [Option.map_some', Function.comp_apply, addTally, adiValsK,
          List.sum_cons, List.length_cons, Option.some.injEq, Prod.mk.injEq]
        constructor
        · omega
        · omega

theorem adiStep_keys {K : List ℤ} {ad ad' : AdiDict} {l : String}
    (h : adiStep K ad l = some ad') : dkeys ad' = dkeys ad := by
  rcases adiStep_eq_some h with ⟨-, rfl⟩ | ⟨z, -, hrest⟩
  · rfl
  · rcases hrest with ⟨-, rfl⟩ | ⟨-, p, c4, hp, -, hrest⟩
    · rfl
    · rcases hrest with ⟨-, rfl⟩ | ⟨v, -, rfl⟩
      · rfl
      · exact dkeys_dset_mem ad z _ (dget_some_mem hp)

/-! ### Averaging pass analysis -/

theorem applyAdi_dget :
    ∀ (st : PopDict) (ad : AdiDict) (st' : PopDict),
      applyAdi st ad = some st' →
      ∀ z : ℤ,
        (∀ e, dget st z = some e →
          ∃ p, dget ad z = some p ∧
            dget st' z = some (if p.2 > 0
              then { e with adi := .pfloat (mkRat p.1 p.2) } else e)) ∧
        (dget st z = none → dget st' z = none) := by
  intro st
  induction st with
  | nil =>
    intro ad st' h z
    rw [applyAdi, List.mapM_nil] at h
    obtain rfl : [] = st' := Option.some.inj h
    exact ⟨fun e he => Option.noConfusion he, fun _ => rfl⟩
  | cons q rest ih =>
    intro ad st' h z
    obtain ⟨k, e0⟩ := q
    rw [applyAdi, List.mapM_cons] at h
    simp only [bind, Option.bind_eq_some] at h
    obtain ⟨y, hy, h⟩ := h
    obtain ⟨ys, hys, h⟩ := h
    obtain rfl : y :: ys = st' := Option.some.inj h
    obtain ⟨t, ht, hy⟩ := hy
    have hyform : y = (k, if t.2 > 0
        then { e0 with adi := .pfloat (mkRat t.1 t.2) } else e0) := by
      by_cases hpos : t.2 > 0
      · rw [if_pos hpos] at hy ⊢
        exact (Option.some.inj hy).symm
      · rw [if_neg hpos] at hy ⊢
        exact (Option.some.inj hy).symm
    have hrest : applyAdi rest ad = some ys := hys
    by_cases hz : z = k
    · subst hz
      constructor
      · intro e he
        rw [dget] at he
        rw [if_pos rfl] at he
        obtain rfl : e0 = e := Option.some.inj he
        refine ⟨t, ht, ?_⟩
        rw [hyform, dget, if_pos rfl]
      · intro he
        rw [dget, if_pos rfl] at he
        exact Option.noConfusion he
    · constructor
      · intro e he
        rw [dget] at he
        rw [if_neg hz] at he
        obtain ⟨p, hp, hres⟩ := (ih ad ys hrest z).1 e he
        refine ⟨p, hp, ?_⟩
        rw [hyform, dget, if_neg hz]
        exact hres
      · intro he
        rw [dget, if_neg hz] at he
        rw [hyform, dget, if_neg hz]
        exact (ih ad ys hrest z).2 he

theorem applyAdi_keys :
    ∀ (st : PopDict) (ad : AdiDict) (st' : PopDict),
      applyAdi st ad = some st' → dkeys st' = dkeys st := by
  intro st
  induction st with
  | nil =>
    intro ad st' h
    rw [applyAdi, List.mapM_nil] at h
    obtain rfl : [] = st' := Option.some.inj h
    rfl
  | cons q rest ih =>
    intro ad st' h
    obtain ⟨k, e0⟩ := q
    rw [applyAdi, List.mapM_cons] at h
    simp only [bind, Option.bind_eq_some] at h
    obtain ⟨y, hy, h⟩ := h
    obtain ⟨ys, hys, h⟩ := h
    obtain rfl : y :: ys = st' := Option.some.inj h
    obtain ⟨t, ht, hy⟩ := hy
    have hy1 : y.1 = k := by
      by_cases hpos : t.2 > 0
      · rw [if_pos hpos] at hy
        rw [← Option.some.inj hy]
      · rw [if_neg hpos] at hy
        rw [← Option.some.inj hy]
    rw [dkeys, List.map_cons, hy1, dkeys_cons]
    congr 1
    exact ih ad ys hys

/-! ### Pipeline decomposition -/

theorem chicagoPop_parts {c v a : List String} {st : PopDict}
    (h : chicagoPop c v a = some st) :
    ∃ st1 st2 ad, List.foldlM caseStep [] c = some st1 ∧
      List.foldlM vaccStep st1 v = some st2 ∧
      List.foldlM (adiStep (dkeys st2))
        (st2.map fun p => (p.1, ((0 : ℤ), (0 : ℕ)))) a = some ad ∧
      applyAdi st2 ad = some st := by
  unfold chicagoPop at h
  simp only [bind, Option.bind_eq_some] at h
  obtain ⟨st1, h1, h⟩ := h
  obtain ⟨st2, h2, h⟩ := h
  obtain ⟨ad, h3, h4⟩ := h
  exact ⟨st1, st2, ad, h1, h2, h3, h4⟩

theorem processCase_nodup :
    ∀ (lines : List String) (st st' : PopDict),
      List.foldlM caseStep st lines = some st' →
      (dkeys st).Nodup → (dkeys st').Nodup := by
  intro lines
  induction lines with
  | nil =>
    intro st st' h hn
    rw [List.foldlM_nil] at h
    obtain rfl : st = st' := Option.some.inj h
    exact hn
  | cons l ls ih =>
    intro st st' h hn
    rw [List.foldlM_cons] at h
    simp only [bind, Option.bind_eq_some] at h
    obtain ⟨st1, h1, h2⟩ := h
    refine ih st1 st' h2 ?_
    rcases caseStep_eq_some h1 with ⟨-, rfl⟩ | ⟨-, zc, cd, v, -, -, -, rfl⟩
    · exact hn
    · by_cases hmem : zc ∈ dkeys st
      · rw [dkeys_dset_mem st zc _ hmem]
        exact hn
      · rw [dkeys_dset_new st zc _ hmem]
        rw [List.nodup_append]
        refine ⟨hn, List.nodup_singleton zc, ?_⟩
        intro x hx hx'
        rw [List.mem_singleton] at hx'
        subst hx'
        exact hmem hx

theorem processCase_mem_keys {c : List String} {st1 : PopDict}
    (h : List.foldlM caseStep [] c = some st1) (z : ℤ) :
    z ∈ dkeys st1 ↔ z ∈ caseCodes c := by
  have hd := processCase_dget c [] st1 h z
  have hok := processCase_ok c [] st1 h
  have hinit : dget ([] : PopDict) z = none := rfl
  rw [hinit] at hd
  constructor
  · intro hmem
    by_contra hc
    have : List.foldl (stepz z) none c = none := (foldl_stepz_none_iff z c hok).mpr hc
    rw [this] at hd
    exact (dget_none_iff st1 z).mp hd hmem
  · intro hcode
    by_contra hc
    have h0 : dget st1 z = none := (dget_none_iff st1 z).mpr hc
    rw [h0] at hd
    exact absurd hcode ((foldl_stepz_none_iff z c hok).mp hd.symm)

theorem adiValsK_of_mem {a : List String} {z : ℤ} {K : List ℤ} (h : z ∈ K) :
    adiValsK a z K = adiVals a z := by
  unfold adiValsK adiVals
  congr 1
  funext l
  by_cases hc : adiLineCode l = some z
  · rw [if_pos ⟨hc, h⟩, if_pos hc]
  · rw [if_neg (by rintro ⟨hcontra, -⟩; exact hc hcontra), if_neg hc]

/-! ### Tokenization of well-formed geometry strings -/

theorem string_mk_data (s : String) : (⟨s.data⟩ : String) = s := rfl

theorem runsAux_nonpoint :
    ∀ (l r : List Char), (∀ c ∈ l, pointChar c = false) →
      runsAux [] (l ++ r) = runsAux [] r := by
  intro l
  induction l with
  | nil => intro r _; rfl
  | cons c cs ih =>
    intro r h
    have hc : pointChar c = false := h c (List.mem_cons_self c cs)
    rw [List.cons_append]
    show runsAux [] (c :: (cs ++ r)) = runsAux [] r
    rw [runsAux]
    rw [hc]
    simp only [Bool.false_eq_true, if_false, List.isEmpty_nil, if_true]
    exact ih r fun x hx => h x (List.mem_cons_of_mem c hx)

theorem runsAux_point_run :
    ∀ (t : List Char) (acc r : List Char), (∀ c ∈ t, pointChar c = true) →
      runsAux acc (t ++ r) = runsAux (t.reverse ++ acc) r := by
  intro t
  induction t with
  | nil => intro acc r _; rfl
  | cons c cs ih =>
    intro acc r h
    have hc : pointChar c = true := h c (List.mem_cons_self c cs)
    rw [List.cons_append, runsAux, hc]
    simp only [if_true]
    rw [ih (c :: acc) r fun x hx => h x (List.mem_cons_of_mem c hx)]
    congr 1
    simp

theorem runsAux_break (acc : List Char) (hacc : acc ≠ []) (r : List Char) :
    runsAux acc (' ' :: r) = acc.reverse :: runsAux [] r := by
  rw [runsAux]
  simp [pointChar, List.isEmpty_iff, hacc]

theorem runsAux_close (acc : List Char) (hacc : acc ≠ []) :
    runsAux acc [')'] = [acc.reverse] := by
  rw [runsAux]
  simp [pointChar, List.isEmpty_iff, hacc, runsAux]

theorem findall_pointForm (lon lat : String)
    (hlon1 : lon.data ≠ []) (hlon2 : ∀ c ∈ lon.data, pointChar c = true)
    (hlat1 : lat.data ≠ []) (hlat2 : ∀ c ∈ lat.data, pointChar c = true) :
    findall ("POINT (" ++ lon ++ " " ++ lat ++ ")") = [lon, lat] := by
  unfold findall
  have hdata : ("POINT (" ++ lon ++ " " ++ lat ++ ")").data
      = "POINT (".data ++ (lon.data ++ (' ' :: (lat.data ++ [')']))) := by
    simp [String.data_append]
  rw [hdata]
  rw [runsAux_nonpoint "POINT (".data _ (by decide)]
  rw [runsAux_point_run lon.data [] _ hlon2, List.append_nil]
  rw [runsAux_break lon.data.reverse (by simpa using hlon1) _]
  rw [runsAux_point_run lat.data [] [')'] hlat2, List.append_nil]
  rw [runsAux_close lat.data.reverse (by simpa using hlat1)]
  simp [string_mk_data]

/-! ### Claim theorems -/

/-- Claim C1: for every well-formed geometry string of the form
`POINT (LON LAT)` - where the two coordinate tokens consist of characters
of the matched class (optional sign, optional decimal point, digits) and
parse as floats - `point_to_coords` returns the pair `(LAT, LON)`: the
second and first numeric substrings of the input, in that order. -/
theorem C1_point_to_coords_latlon (lon lat : String) (ql qa : ℚ)
    (hlon : ∀ c ∈ lon.data, pointChar c = true)
    (hlat : ∀ c ∈ lat.data, pointChar c = true)
    (hql : pyFloat lon = some ql) (hqa : pyFloat lat = some qa) :
    point_to_coords ("POINT (" ++ lon ++ " " ++ lat ++ ")") = some (qa, ql) := by
  have hempty : pyFloat ⟨[]⟩ = none := rfl
  have hlon1 : lon.data ≠ [] := by
    intro hc
    rw [← string_mk_data lon, hc, hempty] at hql
    exact Option.noConfusion hql
  have hlat1 : lat.data ≠ [] := by
    intro hc
    rw [← string_mk_data lat, hc, hempty] at hqa
    exact Option.noConfusion hqa
  unfold point_to_coords
  rw [findall_pointForm lon lat hlon1 hlon hlat1 hlat]
  simp only [hql, hqa]

/-- Witness for C1 at the specification's own example: the geometry string
`POINT (-87.65 41.85)` yields latitude `41.85` and longitude `-87.65`. -/
theorem C1_point_to_coords_latlon_witness :
    point_to_coords ("POINT (" ++ "-87.65" ++ " " ++ "41.85" ++ ")")
      = some (mkRat 4185 100, mkRat (-8765) 100) :=
  C1_point_to_coords_latlon "-87.65" "41.85" (mkRat (-8765) 100) (mkRat 4185 100)
    (by decide) (by decide) (by decide) (by decide)

/-- Claim C2: end-to-end run on the two-line case file (one header comment
row plus one data row with count 18 in column 18 and the geometry string
last), the one-line vaccination file with 150 in column 4, and an ADI file
with no valid matching rows: the population file body is exactly the
single data row `0 60601 41.88 -87.62 18 150 0` (tab-separated, trailing
tab) after the header. -/
theorem C2_end_to_end :
    chicagoPopFile
      ["ZIP Code,Tests - Cumulative,header comment row",
       "60601,x,x,x,x,x,x,x,x,x,x,x,x,x,x,x,x,x,18,POINT (-87.62 41.88)"]
      ["60601,...,,,150"]
      []
      = some (POP_HEADER ++ "0\t60601\t41.88\t-87.62\t18\t150\t0\t\n") := by
  decide

theorem chicagoPop_keys {c v a : List String} {st : PopDict}
    (h : chicagoPop c v a = some st) :
    (dkeys st).Nodup ∧ ∀ z : ℤ, z ∈ dkeys st ↔ z ∈ caseCodes c := by
  obtain ⟨st1, st2, ad, h1, h2, h3, h4⟩ := chicagoPop_parts h
  have hk : dkeys st = dkeys st1 := by
    rw [applyAdi_keys st2 ad st h4, processVacc_keys v st1 st2 h2]
  constructor
  · rw [hk]
    exact processCase_nodup c [] st1 h1 List.nodup_nil
  · intro z
    rw [hk]
    exact processCase_mem_keys h1 z

/-- Claim C3: the postal codes appearing in the population output are
exactly the codes of the case source's data rows: the output name column
(the sorted key list) contains each such code exactly once, and no code
from the vaccination or ADI sources that is absent from the case source
ever appears. -/
theorem C3_output_codes (c v a : List String) (st : PopDict)
    (h : chicagoPop c v a = some st) :
    (sortKeys st).Nodup ∧ ∀ z : ℤ, z ∈ sortKeys st ↔ z ∈ caseCodes c := by
  obtain ⟨hn, hm⟩ := chicagoPop_keys h
  have hperm : (sortKeys st).Perm (dkeys st) := by
    unfold sortKeys
    exact List.perm_insertionSort _ _
  exact ⟨hperm.nodup_iff.mpr hn, fun z => (hperm.mem_iff).trans (hm z)⟩

theorem mapM_dget_exists :
    ∀ (st : PopDict) (sk : List ℤ), (∀ z ∈ sk, z ∈ dkeys st) →
      ∃ es, sk.mapM (dget st) = some es ∧ es.length = sk.length := by
  intro st sk
  induction sk with
  | nil => intro _; exact ⟨[], rfl, rfl⟩
  | cons z zs ih =>
    intro hmem
    have hz : dget st z ≠ none := by
      rw [Ne, dget_none_iff]
      intro hc
      exact hc (hmem z (List.mem_cons_self z zs))
    obtain ⟨e, he⟩ := Option.ne_none_iff_exists'.mp hz
    obtain ⟨es, hes, hlen⟩ := ih fun x hx => hmem x (List.mem_cons_of_mem z hx)
    refine ⟨e :: es, ?_, by simp [hlen]⟩
    rw [List.mapM_cons, he, hes]
    rfl

theorem popTable_spec (st : PopDict) :
    ∃ rows, popTable st = some rows ∧
      rows.map (fun r => r.2.1) = sortKeys st ∧
      rows.map Prod.fst = List.range (sortKeys st).length ∧
      rows.length = (sortKeys st).length := by
  have hmem : ∀ z ∈ sortKeys st, z ∈ dkeys st := by
    intro z hz
    unfold sortKeys at hz
    exact (List.perm_insertionSort _ _).mem_iff.mp hz
  obtain ⟨es, hes, hlen⟩ := mapM_dget_exists st (sortKeys st) hmem
  have hzlen : ((sortKeys st).zip es).length = (sortKeys st).length := by
    rw [List.length_zip, hlen, min_self]
  refine ⟨((sortKeys st).zip es).enum.map fun p => (p.1, p.2.1, p.2.2),
    ?_, ?_, ?_, ?_⟩
  · unfold popTable
    simp only [bind, hes, Option.some_bind]
  · rw [List.map_map]
    have h1 : ((fun r : ℕ × ℤ × Entry => r.2.1) ∘
        (fun p : ℕ × ℤ × Entry => (p.1, p.2.1, p.2.2)))
        = fun p : ℕ × ℤ × Entry => p.2.1 := rfl
    rw [h1]
    have h2 : (((sortKeys st).zip es).enum.map fun p : ℕ × ℤ × Entry => p.2.1)
        = (((sortKeys st).zip es).enum.map Prod.snd).map Prod.fst := by
      rw [List.map_map]
      rfl
    rw [h2, List.enum_map_snd]
    exact List.map_fst_zip _ _ (le_of_eq hlen.symm)
  · rw [List.map_map]
    have h1 : ((Prod.fst : ℕ × ℤ × Entry → ℕ) ∘
        (fun p : ℕ × ℤ × Entry => (p.1, p.2.1, p.2.2)))
        = (Prod.fst : ℕ × ℤ × Entry → ℕ) := rfl
    rw [h1, List.enum_map_fst, hzlen]
  · rw [List.length_map, List.enum_length, hzlen]

/-- Claim C4: the population output rows are ordered strictly ascending by
postal code, and the id column carries the dense 0-based indices over
exactly that order. -/
theorem C4_output_order (c v a : List String) (st : PopDict)
    (rows : List (ℕ × ℤ × Entry)) (h : chicagoPop c v a = some st)
    (hr : popTable st = some rows) :
    rows.map Prod.fst = List.range rows.length ∧
    (rows.map fun r => r.2.1).Pairwise (· < ·) := by
  obtain ⟨rows', hr', hnames, hids, hlen⟩ := popTable_spec st
  rw [hr] at hr'
  obtain rfl : rows = rows' := Option.some.inj hr'
  constructor
  · rw [hids, hlen]
  · rw [hnames]
    have hn : (sortKeys st).Nodup := by
      unfold sortKeys
      exact (List.perm_insertionSort _ _).nodup_iff.mpr (chicagoPop_keys h).1
    have hsorted : (sortKeys st).Pairwise (fun a b : ℤ => a ≤ b) := by
      unfold sortKeys
      exact List.sorted_insertionSort _ _
    exact (hsorted.and hn).imp fun hab => lt_of_le_of_ne hab.1 hab.2

/-! ### Per-entry staging through the three loops -/

theorem chicagoPop_stages {c v a : List String} {st : PopDict} {z : ℤ} {e : Entry}
    (h : chicagoPop c v a = some st) (he : dget st z = some e) :
    ∃ st1 e1,
      List.foldlM caseStep [] c = some st1 ∧
      dget st1 z = some e1 ∧
      (∀ l ∈ c, caseLineOK l = true) ∧
      e.popc = e1.popc ∧ e.lat = e1.lat ∧ e.lon = e1.lon ∧
      e.vacc = e1.vacc + (vaccVals v z).sum ∧
      e.adi = (if (adiVals a z).length > 0
        then PyNum.pfloat (mkRat (adiVals a z).sum (adiVals a z).length)
        else e1.adi) := by
  obtain ⟨st1, st2, ad, h1, h2, h3, h4⟩ := chicagoPop_parts h
  have hmemst : z ∈ dkeys st := dget_some_mem he
  have hkeys2 : dkeys st = dkeys st2 := applyAdi_keys st2 ad st h4
  have hmem2 : z ∈ dkeys st2 := hkeys2 ▸ hmemst
  have h2' : dget st2 z ≠ none := by
    rw [Ne, dget_none_iff]
    intro hc
    exact hc hmem2
  obtain ⟨e2, he2⟩ := Option.ne_none_iff_exists'.mp h2'
  have hvacc := processVacc_dget v st1 st2 h2 z
  rw [he2] at hvacc
  cases he1 : dget st1 z with
  | none =>
    rw [he1] at hvacc
    exact Option.noConfusion hvacc
  | some e1 =>
    rw [he1] at hvacc
    obtain rfl : e2 = addVacc (vaccVals v z).sum e1 := Option.some.inj hvacc
    have hadi := processAdi_dget a (dkeys st2) _ ad h3 z
    rw [dget_map_init st2 z, he2] at hadi
    rw [adiValsK_of_mem hmem2] at hadi
    simp only [Option.map_some'] at hadi
    obtain ⟨p, hp, hres⟩ := (applyAdi_dget st2 ad st h4 z).1 _ he2
    rw [hadi] at hp
    obtain rfl : (0 + (adiVals a z).sum, 0 + (adiVals a z).length) = p :=
      Option.some.inj hp
    have hee : e = (if 0 + (adiVals a z).length > 0
        then { (addVacc (vaccVals v z).sum e1) with
               adi := PyNum.pfloat
                 (mkRat (0 + (adiVals a z).sum) (0 + (adiVals a z).length)) }
        else addVacc (vaccVals v z).sum e1) :=
      Option.some.inj (he.symm.trans hres)
    have hepop : e.popc = e1.popc := by
      rw [hee]
      by_cases hpos : 0 + (adiVals a z).length > 0
      · rw [if_pos hpos]
        simp [addVacc]
      · rw [if_neg hpos]
        simp [addVacc]
    have helat : e.lat = e1.lat := by
      rw [hee]
      by_cases hpos : 0 + (adiVals a z).length > 0
      · rw [if_pos hpos]
        simp [addVacc]
      · rw [if_neg hpos]
        simp [addVacc]
    have helon : e.lon = e1.lon := by
      rw [hee]
      by_cases hpos : 0 + (adiVals a z).length > 0
      · rw [if_pos hpos]
        simp [addVacc]
      · rw [if_neg hpos]
        simp [addVacc]
    have hevacc : e.vacc = e1.vacc + (vaccVals v z).sum := by
      rw [hee]
      by_cases hpos : 0 + (adiVals a z).length > 0
      · rw [if_pos hpos]
        simp [addVacc]
      · rw [if_neg hpos]
        simp [addVacc]
    have headi : e.adi = (if (adiVals a z).length > 0
        then PyNum.pfloat (mkRat (adiVals a z).sum (adiVals a z).length)
        else e1.adi) := by
      rw [hee]
      simp only [zero_add]
      by_cases hpos : (adiVals a z).length > 0
      · rw [if_pos hpos, if_pos hpos]
      · rw [if_neg hpos, if_neg hpos]
        simp [addVacc]
    exact ⟨st1, e1, h1, he1, processCase_ok c [] st1 h1,
      hepop, helat, helon, hevacc, headi⟩

/-- Claim C5, counterexample to the claim as stated: for a case source
whose single row carries the (negative) count -1 in column 18, the
emitted pop value is 0, while the maximum of all observed case-count
values for that code is -1. The zero-initialised entry takes part in the
maximum, so a strictly negative maximum never survives. -/
theorem C5_pop_max_counterexample :
    ((chicagoPop
        ["60601,x,x,x,x,x,x,x,x,x,x,x,x,x,x,x,x,x,-1,POINT (1.5 2.5)"] [] []).bind
      (fun st => dget st 60601)).map Entry.popc = some 0 ∧
    caseVals ["60601,x,x,x,x,x,x,x,x,x,x,x,x,x,x,x,x,x,-1,POINT (1.5 2.5)"] 60601
      = [-1] ∧
    ((-1 : ℤ) :: []).foldl max (-1) ≠ 0 := by
  refine ⟨by decide, by decide, by decide⟩

/-- Claim C5 as amended: the pop field equals the maximum of 0 and all
case-count values observed for the code (the fold of max over the values
starting from the zero-initialised entry), and this value is invariant
under any reordering of the case-source rows. -/
theorem C5_pop_max_amended (c v a : List String) (st : PopDict) (z : ℤ) (e : Entry)
    (h : chicagoPop c v a = some st) (he : dget st z = some e) :
    e.popc = (caseVals c z).foldl max 0 ∧
    ∀ (c' : List String) (st' : PopDict) (e' : Entry), c'.Perm c →
      chicagoPop c' v a = some st' → dget st' z = some e' → e'.popc = e.popc := by
  have main : ∀ (c0 : List String) (st0 : PopDict) (e0 : Entry),
      chicagoPop c0 v a = some st0 → dget st0 z = some e0 →
      e0.popc = (caseVals c0 z).foldl max 0 := by
    intro c0 st0 e0 h0 he0
    obtain ⟨st1, e1, h1, he1, hok, hpopc, -, -, -, -⟩ := chicagoPop_stages h0 he0
    have hd := processCase_dget c0 [] st1 h1 z
    have hinit : dget ([] : PopDict) z = none := rfl
    rw [hinit] at hd
    rw [hd] at he1
    have := foldl_stepz_popc z c0 none e1 hok he1
    rw [hpopc, this]
    rfl
  refine ⟨main c st e h he, ?_⟩
  intro c' st' e' hperm h' he'
  rw [main c' st' e' h' he', main c st e h he]
  have hvals : (caseVals c' z).Perm (caseVals c z) := hperm.filterMap _
  exact hvals.foldl_eq 0

/-- Witness for C5 as amended, at a two-row case source with counts 7 and
18 for code 60601: pop is 18 (the fold of max), and the run on the
reversed source yields the same pop. -/
theorem C5_pop_max_amended_witness :
    ((⟨mkRat 45 10, mkRat 35 10, 18, 0, .pint 0⟩ : Entry).popc
      = (caseVals
          ["60601,x,x,x,x,x,x,x,x,x,x,x,x,x,x,x,x,x,7,POINT (1.5 2.5)",
           "60601,x,x,x,x,x,x,x,x,x,x,x,x,x,x,x,x,x,18,POINT (3.5 4.5)"]
          60601).foldl max 0) ∧
    ((⟨mkRat 25 10, mkRat 15 10, 18, 0, .pint 0⟩ : Entry).popc
      = (⟨mkRat 45 10, mkRat 35 10, 18, 0, .pint 0⟩ : Entry).popc) := by
  have hmain := C5_pop_max_amended
    ["60601,x,x,x,x,x,x,x,x,x,x,x,x,x,x,x,x,x,7,POINT (1.5 2.5)",
     "60601,x,x,x,x,x,x,x,x,x,x,x,x,x,x,x,x,x,18,POINT (3.5 4.5)"] [] []
    [(60601, ⟨mkRat 45 10, mkRat 35 10, 18, 0, .pint 0⟩)] 60601
    ⟨mkRat 45 10, mkRat 35 10, 18, 0, .pint 0⟩
    (by decide) (by decide)
  refine ⟨hmain.1, ?_⟩
  exact hmain.2
    ["60601,x,x,x,x,x,x,x,x,x,x,x,x,x,x,x,x,x,18,POINT (3.5 4.5)",
     "60601,x,x,x,x,x,x,x,x,x,x,x,x,x,x,x,x,x,7,POINT (1.5 2.5)"]
    [(60601, ⟨mkRat 25 10, mkRat 15 10, 18, 0, .pint 0⟩)]
    ⟨mkRat 25 10, mkRat 15 10, 18, 0, .pint 0⟩
    (by decide) (by decide) (by decide)

/-- Claim C6: for every known postal code, the vacc field equals the sum
of the successfully parsed column-4 values over the vaccination rows for
that code (so rows whose column 4 fails numeric parsing contribute
nothing); and a data row whose code is known but whose column-4 value
fails numeric parsing is skipped, leaving the state unchanged rather than
aborting the run. -/
theorem C6_vacc_sum :
    (∀ (c v a : List String) (st : PopDict) (z : ℤ) (e : Entry),
      chicagoPop c v a = some st → dget st z = some e →
      e.vacc = (vaccVals v z).sum) ∧
    (∀ (st0 : PopDict) (l : String) (z : ℤ) (e : Entry) (c4 : String),
      lineCode l = some z → dget st0 z = some e →
      col (pySplit l ',') 4 = some c4 → pyInt c4 = none →
      vaccStep st0 l = some st0) := by
  constructor
  · intro c v a st z e h he
    obtain ⟨st1, e1, h1, he1, -, -, -, -, hvacc, -⟩ := chicagoPop_stages h he
    have hd := processCase_dget c [] st1 h1 z
    have hinit : dget ([] : PopDict) z = none := rfl
    rw [hinit] at hd
    rw [hd] at he1
    obtain ⟨hv0, -⟩ := foldl_stepz_vacc_adi z c none e1 he1
    rw [hvacc, hv0]
    simp
  · intro st0 l z e c4 hlc he hc4 hpi
    obtain ⟨hd, h0⟩ := lineCode_some_elim hlc
    unfold vaccStep
    rw [if_neg (by rw [hd]; exact fun hc => Bool.noConfusion hc)]
    simp [bind, h0, he, hc4, hpi]

/-- Witness for C6: a vaccination file with one unparseable row and two
numeric rows (150 and 8) yields vacc 158, and the unparseable row leaves
the dictionary unchanged without aborting. -/
theorem C6_vacc_sum_witness :
    ((⟨mkRat 4188 100, mkRat (-8762) 100, 18, 158, .pint 0⟩ : Entry).vacc
      = (vaccVals ["60601,a,b,c,xx", "60601,...,,,150", "60601,,,,8"] 60601).sum) ∧
    (vaccStep [(60601, (⟨mkRat 4188 100, mkRat (-8762) 100, 18, 158, .pint 0⟩ : Entry))]
        "60601,a,b,c,xx"
      = some [(60601, (⟨mkRat 4188 100, mkRat (-8762) 100, 18, 158, .pint 0⟩ : Entry))]) := by
  constructor
  · exact C6_vacc_sum.1
      ["60601,x,x,x,x,x,x,x,x,x,x,x,x,x,x,x,x,x,18,POINT (-87.62 41.88)"]
      ["60601,a,b,c,xx", "60601,...,,,150", "60601,,,,8"] []
      [(60601, ⟨mkRat 4188 100, mkRat (-8762) 100, 18, 158, .pint 0⟩)] 60601
      ⟨mkRat 4188 100, mkRat (-8762) 100, 18, 158, .pint 0⟩
      (by decide) (by decide)
  · exact C6_vacc_sum.2
      [(60601, ⟨mkRat 4188 100, mkRat (-8762) 100, 18, 158, .pint 0⟩)]
      "60601,a,b,c,xx" 60601
      ⟨mkRat 4188 100, mkRat (-8762) 100, 18, 158, .pint 0⟩ "xx"
      (by decide) (by decide) (by decide) (by decide)

/-- Claim C7: for every known postal code, the adi field's numeric value
equals the arithmetic mean of the valid numeric column-4 values over the
ADI rows whose 5-digit truncated sub-code equals the code, and equals 0
when no valid values exist. -/
theorem C7_adi_mean (c v a : List String) (st : PopDict) (z : ℤ) (e : Entry)
    (h : chicagoPop c v a = some st) (he : dget st z = some e) :
    e.adi.val = if adiVals a z = [] then 0
      else ((adiVals a z).sum : ℚ) / ((adiVals a z).length : ℚ) := by
  obtain ⟨st1, e1, h1, he1, -, -, -, -, -, headi⟩ := chicagoPop_stages h he
  have hd := processCase_dget c [] st1 h1 z
  have hinit : dget ([] : PopDict) z = none := rfl
  rw [hinit] at hd
  rw [hd] at he1
  obtain ⟨-, ha0⟩ := foldl_stepz_vacc_adi z c none e1 he1
  rw [headi]
  by_cases hnil : adiVals a z = []
  · rw [if_pos hnil, hnil]
    simp only [List.length_nil, gt_iff_lt, lt_self_iff_false, if_false]
    rw [ha0]
    simp [PyNum.val]
  · rw [if_neg hnil]
    have hpos : (adiVals a z).length > 0 := List.length_pos.mpr hnil
    rw [if_pos hpos]
    rw [PyNum.val]
    exact Rat.mkRat_eq_div _ _

/-- Witness for C7: two matching ADI rows with values 4 and 7 (and one
row for an unknown code, one non-data row) yield mean 11/2. -/
theorem C7_adi_mean_witness :
    (⟨mkRat 25 10, mkRat 15 10, 5, 0, .pfloat (mkRat 11 2)⟩ : Entry).adi.val
      = (if adiVals ["\"606010001\",a,b,c,4", "\"606010002\",a,b,c,7",
            "\"999990001\",a,b,c,100", "not-a-data-row"] 60601 = [] then 0
        else ((adiVals ["\"606010001\",a,b,c,4", "\"606010002\",a,b,c,7",
            "\"999990001\",a,b,c,100", "not-a-data-row"] 60601).sum : ℚ)
          / ((adiVals ["\"606010001\",a,b,c,4", "\"606010002\",a,b,c,7",
            "\"999990001\",a,b,c,100", "not-a-data-row"] 60601).length : ℚ)) :=
  C7_adi_mean
    ["60601,x,x,x,x,x,x,x,x,x,x,x,x,x,x,x,x,x,5,POINT (1.5 2.5)"] []
    ["\"606010001\",a,b,c,4", "\"606010002\",a,b,c,7",
     "\"999990001\",a,b,c,100", "not-a-data-row"]
    [(60601, ⟨mkRat 25 10, mkRat 15 10, 5, 0, .pfloat (mkRat 11 2)⟩)] 60601
    ⟨mkRat 25 10, mkRat 15 10, 5, 0, .pfloat (mkRat 11 2)⟩
    (by decide) (by decide)

/-- Claim C8: a vaccination data row whose postal code is absent from the
case source makes the whole run abort with an unhandled lookup error
(only numeric-parse failures are caught there), while an ADI row whose
truncated 5-digit parent code is unknown is silently discarded and the
loop continues with the tallies unchanged. -/
theorem C8_unknown_code :
    (∀ (c v a : List String) (l : String) (z : ℤ), l ∈ v → lineCode l = some z →
      z ∉ caseCodes c → chicagoPop c v a = none) ∧
    (∀ (K : List ℤ) (ad : AdiDict) (l : String) (z : ℤ),
      adiLineCode l = some z → z ∉ K → adiStep K ad l = some ad) := by
  constructor
  · intro c v a l z hl hlc hnc
    unfold chicagoPop
    cases hcase : List.foldlM caseStep ([] : PopDict) c with
    | none => simp [bind, hcase]
    | some st1 =>
      have hz : z ∉ dkeys st1 := fun hmem => hnc ((processCase_mem_keys hcase z).mp hmem)
      have hvnone := processVacc_bad v st1 l z hl hlc hz
      simp [bind, hcase, hvnone]
  · intro K ad l z hlc hz
    exact adiStep_skip_unknown hlc hz

/-- Witness for C8: the vaccination row `1,` for the unknown code 1 kills
the run on an empty case source, while the ADI row for unknown code 60601
is skipped with the tallies unchanged. -/
theorem C8_unknown_code_witness :
    chicagoPop [] ["1,"] [] = none ∧
    adiStep [] [] "60601,,,,1" = some [] :=
  ⟨C8_unknown_code.1 [] ["1,"] [] "1," 1 (by decide) (by decide) (by decide),
   C8_unknown_code.2 [] [] "60601,,,,1" 60601 (by decide) (by decide)⟩

/-- Claim C10 (implicit): for a code with several case rows, the emitted
latitude and longitude come entirely from the last row for that code
(each row overwrites the previous coordinates), and consequently - unlike
the pop maximum - the emitted coordinates are not invariant under
reordering of the case-source rows, as the concrete two-row reorder
exhibits. -/
theorem C10_coords_last_row :
    (∀ (c v a : List String) (st : PopDict) (z : ℤ) (e : Entry),
      chicagoPop c v a = some st → dget st z = some e →
      ∃ l, (caseRowsFor c z).getLast? = some l ∧
        (lineGeom l >>= point_to_coords) = some (e.lat, e.lon)) ∧
    ((chicagoPop
        ["60601,x,x,x,x,x,x,x,x,x,x,x,x,x,x,x,x,x,7,POINT (1.5 2.5)",
         "60601,x,x,x,x,x,x,x,x,x,x,x,x,x,x,x,x,x,7,POINT (3.5 4.5)"] [] []).bind
          (fun st => dget st 60601)).map (fun e => (e.lat, e.lon))
      ≠ ((chicagoPop
        ["60601,x,x,x,x,x,x,x,x,x,x,x,x,x,x,x,x,x,7,POINT (3.5 4.5)",
         "60601,x,x,x,x,x,x,x,x,x,x,x,x,x,x,x,x,x,7,POINT (1.5 2.5)"] [] []).bind
          (fun st => dget st 60601)).map (fun e => (e.lat, e.lon)) := by
  constructor
  · intro c v a st z e h he
    obtain ⟨st1, e1, h1, he1, hok, -, hlat, hlon, -, -⟩ := chicagoPop_stages h he
    have hmem : z ∈ caseCodes c := (processCase_mem_keys h1 z).mp (dget_some_mem he1)
    obtain ⟨l0, hl0, hl0c⟩ := List.mem_filterMap.mp hmem
    have hne : caseRowsFor c z ≠ [] := by
      intro hc
      have hin : l0 ∈ caseRowsFor c z := by
        unfold caseRowsFor
        rw [List.mem_filter]
        exact ⟨hl0, by simp [hl0c]⟩
      rw [hc] at hin
      exact List.not_mem_nil l0 hin
    have hsome : (caseRowsFor c z).getLast?.isSome := by
      rw [List.getLast?_isSome]
      exact hne
    obtain ⟨l, hl⟩ := Option.isSome_iff_exists.mp hsome
    refine ⟨l, hl, ?_⟩
    have hd := processCase_dget c [] st1 h1 z
    have hinit : dget ([] : PopDict) z = none := rfl
    rw [hinit] at hd
    rw [hd] at he1
    have hcoord := foldl_stepz_coords z c none hok l hl e1 he1
    rw [hlat, hlon]
    exact hcoord
  · decide

/-- Witness for C10 at the two-row case source: the reported coordinates
are those of the second (last) row. -/
theorem C10_coords_last_row_witness :
    ∃ l, (caseRowsFor
        ["60601,x,x,x,x,x,x,x,x,x,x,x,x,x,x,x,x,x,7,POINT (1.5 2.5)",
         "60601,x,x,x,x,x,x,x,x,x,x,x,x,x,x,x,x,x,7,POINT (3.5 4.5)"]
        60601).getLast? = some l ∧
      (lineGeom l >>= point_to_coords)
        = some ((⟨mkRat 45 10, mkRat 35 10, 7, 0, .pint 0⟩ : Entry).lat,
                (⟨mkRat 45 10, mkRat 35 10, 7, 0, .pint 0⟩ : Entry).lon) :=
  C10_coords_last_row.1
    ["60601,x,x,x,x,x,x,x,x,x,x,x,x,x,x,x,x,x,7,POINT (1.5 2.5)",
     "60601,x,x,x,x,x,x,x,x,x,x,x,x,x,x,x,x,x,7,POINT (3.5 4.5)"] [] []
    [(60601, ⟨mkRat 45 10, mkRat 35 10, 7, 0, .pint 0⟩)] 60601
    ⟨mkRat 45 10, mkRat 35 10, 7, 0, .pint 0⟩
    (by decide) (by decide)

/-! ### The rendered cells contain no tab and no newline -/

theorem digitChar_clean (d : ℕ) : digitChar d ≠ '\t' ∧ digitChar d ≠ '\n' := by
  unfold digitChar
  split <;> exact ⟨by decide, by decide⟩

theorem natDigitsAux_clean :
    ∀ (f n : ℕ) (ch : Char), ch ∈ natDigitsAux f n → ch ≠ '\t' ∧ ch ≠ '\n' := by
  intro f
  induction f with
  | zero => intro n ch hch; exact absurd hch (List.not_mem_nil ch)
  | succ f ih =>
    intro n ch hch
    rw [natDigitsAux] at hch
    by_cases hn : n = 0
    · rw [if_pos hn] at hch
      exact absurd hch (List.not_mem_nil ch)
    · rw [if_neg hn, List.mem_append] at hch
      rcases hch with hch | hch
      · exact ih _ ch hch
      · rw [List.mem_singleton] at hch
        exact hch ▸ digitChar_clean _

theorem pyStrNat_clean (n : ℕ) :
    ∀ ch ∈ (pyStrNat n).data, ch ≠ '\t' ∧ ch ≠ '\n' := by
  intro ch hch
  unfold pyStrNat at hch
  by_cases hn : n = 0
  · rw [if_pos hn] at hch
    have h0 : ("0" : String).data = ['0'] := rfl
    rw [h0, List.mem_singleton] at hch
    exact hch ▸ ⟨by decide, by decide⟩
  · rw [if_neg hn] at hch
    exact natDigitsAux_clean _ _ ch hch

theorem append_clean {s t : String}
    (hs : ∀ ch ∈ s.data, ch ≠ '\t' ∧ ch ≠ '\n')
    (ht : ∀ ch ∈ t.data, ch ≠ '\t' ∧ ch ≠ '\n') :
    ∀ ch ∈ (s ++ t).data, ch ≠ '\t' ∧ ch ≠ '\n' := by
  intro ch hch
  rw [String.data_append, List.mem_append] at hch
  rcases hch with h | h
  · exact hs ch h
  · exact ht ch h

theorem pyStrInt_clean (z : ℤ) :
    ∀ ch ∈ (pyStrInt z).data, ch ≠ '\t' ∧ ch ≠ '\n' := by
  unfold pyStrInt
  by_cases hz : z < 0
  · rw [if_pos hz]
    exact append_clean (by decide) (pyStrNat_clean _)
  · rw [if_neg hz]
    exact pyStrNat_clean _

theorem padZeros_clean (k : ℕ) (s : String)
    (hs : ∀ ch ∈ s.data, ch ≠ '\t' ∧ ch ≠ '\n') :
    ∀ ch ∈ (padZeros k s).data, ch ≠ '\t' ∧ ch ≠ '\n' := by
  unfold padZeros
  refine append_clean ?_ hs
  intro ch hch
  rw [List.mem_replicate] at hch
  exact hch.2 ▸ ⟨by decide, by decide⟩

theorem pyStrFloatPos_clean (q : ℚ) :
    ∀ ch ∈ (pyStrFloatPos q).data, ch ≠ '\t' ∧ ch ≠ '\n' := by
  unfold pyStrFloatPos
  split
  · next k hk =>
    by_cases hk0 : k = 0
    · rw [if_pos hk0]
      exact append_clean (pyStrNat_clean _) (by decide)
    · rw [if_neg hk0]
      exact append_clean (append_clean (pyStrNat_clean _) (by decide))
        (padZeros_clean _ _ (pyStrNat_clean _))
  · exact append_clean (append_clean (pyStrNat_clean _) (by decide))
      (pyStrNat_clean _)

theorem pyStrFloat_clean (q : ℚ) :
    ∀ ch ∈ (pyStrFloat q).data, ch ≠ '\t' ∧ ch ≠ '\n' := by
  unfold pyStrFloat
  by_cases hq : q < 0
  · rw [if_pos hq]
    exact append_clean (by decide) (pyStrFloatPos_clean _)
  · rw [if_neg hq]
    exact pyStrFloatPos_clean _

theorem pyNumStr_clean (x : PyNum) :
    ∀ ch ∈ x.str.data, ch ≠ '\t' ∧ ch ≠ '\n' := by
  cases x with
  | pint z => exact pyStrInt_clean z
  | pfloat q => exact pyStrFloat_clean q

theorem rowCells_clean (i : ℕ) (z : ℤ) (e : Entry) :
    ∀ x ∈ rowCells i z e, ∀ ch ∈ x.data, ch ≠ '\t' ∧ ch ≠ '\n' := by
  intro x hx
  unfold rowCells at hx
  simp only [List.mem_cons, List.not_mem_nil, or_false] at hx
  rcases hx with rfl | rfl | rfl | rfl | rfl | rfl | rfl
  · exact pyStrNat_clean _
  · exact pyStrInt_clean _
  · exact pyStrFloat_clean _
  · exact pyStrFloat_clean _
  · exact pyStrInt_clean _
  · exact pyStrInt_clean _
  · exact pyNumStr_clean _

/-- Claim C9: the population file begins with the exact header
`id name lat lon pop vacc adi` (tab-delimited, trailing tab, then
newline), and every data row consists of exactly seven cells, each
followed by a tab (hence a trailing tab before the newline), with no tab
or newline inside any cell; the facility file is exactly the header
`id name lat lon cap` (tab-delimited, trailing tab, then newline) with
no data rows. -/
theorem C9_output_format :
    POP_HEADER = "id\tname\tlat\tlon\tpop\tvacc\tadi\t\n" ∧
    chicagoFacFile = "id\tname\tlat\tlon\tcap\t\n" ∧
    ∀ (c v a : List String) (out : String), chicagoPopFile c v a = some out →
      ∃ cells : List (List String),
        out = POP_HEADER ++ String.join (cells.map fun cs =>
          String.join (cs.map fun x => x ++ "\t") ++ "\n") ∧
        ∀ cs ∈ cells, cs.length = 7 ∧
          ∀ x ∈ cs, ∀ ch ∈ x.data, ch ≠ '\t' ∧ ch ≠ '\n' := by
  refine ⟨rfl, rfl, ?_⟩
  intro c v a out hout
  unfold chicagoPopFile at hout
  simp only [bind, Option.bind_eq_some] at hout
  obtain ⟨st, hst, hout⟩ := hout
  obtain ⟨rows, hrows, hout⟩ := hout
  obtain rfl : _ = out := Option.some.inj hout
  refine ⟨rows.map fun r => rowCells r.1 r.2.1 r.2.2, ?_, ?_⟩
  · congr 1
    rw [List.map_map]
    rfl
  · intro cs hcs
    rw [List.mem_map] at hcs
    obtain ⟨r, -, rfl⟩ := hcs
    exact ⟨rfl, rowCells_clean r.1 r.2.1 r.2.2⟩

/-- Witness for C9 at the concrete end-to-end run. -/
theorem C9_output_format_witness :
    ∃ cells : List (List String),
      (POP_HEADER ++ "0\t60601\t41.88\t-87.62\t18\t150\t0\t\n")
        = POP_HEADER ++ String.join (cells.map fun cs =>
            String.join (cs.map fun x => x ++ "\t") ++ "\n") ∧
      ∀ cs ∈ cells, cs.length = 7 ∧
        ∀ x ∈ cs, ∀ ch ∈ x.data, ch ≠ '\t' ∧ ch ≠ '\n' :=
  C9_output_format.2.2
    ["ZIP Code,Tests - Cumulative,header comment row",
     "60601,x,x,x,x,x,x,x,x,x,x,x,x,x,x,x,x,x,18,POINT (-87.62 41.88)"]
    ["60601,...,,,150"] []
    (POP_HEADER ++ "0\t60601\t41.88\t-87.62\t18\t150\t0\t\n")
    (by decide)

/-- Witness for C3 at the concrete end-to-end run. -/
theorem C3_output_codes_witness :
    (sortKeys [(60601,
        (⟨mkRat 4188 100, mkRat (-8762) 100, 18, 150, .pint 0⟩ : Entry))]).Nodup ∧
    (60601 ∈ sortKeys [(60601,
        (⟨mkRat 4188 100, mkRat (-8762) 100, 18, 150, .pint 0⟩ : Entry))] ↔
      60601 ∈ caseCodes
        ["ZIP Code,Tests - Cumulative,header comment row",
         "60601,x,x,x,x,x,x,x,x,x,x,x,x,x,x,x,x,x,18,POINT (-87.62 41.88)"]) := by
  have h := C3_output_codes
    ["ZIP Code,Tests - Cumulative,header comment row",
     "60601,x,x,x,x,x,x,x,x,x,x,x,x,x,x,x,x,x,18,POINT (-87.62 41.88)"]
    ["60601,...,,,150"] []
    [(60601, ⟨mkRat 4188 100, mkRat (-8762) 100, 18, 150, .pint 0⟩)]
    (by decide)
  exact ⟨h.1, h.2 60601⟩

/-- Witness for C4 at the concrete end-to-end run. -/
theorem C4_output_order_witness :
    (([((0 : ℕ), (60601 : ℤ),
        (⟨mkRat 4188 100, mkRat (-8762) 100, 18, 150, .pint 0⟩ : Entry))].map Prod.fst)
      = List.range 1) ∧
    ([((0 : ℕ), (60601 : ℤ),
        (⟨mkRat 4188 100, mkRat (-8762) 100, 18, 150, .pint 0⟩ : Entry))].map
          (fun r => r.2.1)).Pairwise (· < ·) := by
  have h := C4_output_order
    ["ZIP Code,Tests - Cumulative,header comment row",
     "60601,x,x,x,x,x,x,x,x,x,x,x,x,x,x,x,x,x,18,POINT (-87.62 41.88)"]
    ["60601,...,,,150"] []
    [(60601, ⟨mkRat 4188 100, mkRat (-8762) 100, 18, 150, .pint 0⟩)]
    [(0, 60601, ⟨mkRat 4188 100, mkRat (-8762) 100, 18, 150, .pint 0⟩)]
    (by decide) (by decide)
  exact h
